import Mathlib

/-!
# Verification of fractalqb/namemap (namemap.go)

Shallow embedding of the Go package `namemap`.  Go maps (`map[string]int`,
`map[string]terms`) are modelled as association lists with unique keys:
lookup returns the value of the unique matching key; insertion overwrites
an existing key in place or appends a fresh one.  Go map iteration order is
unspecified; the model iterates in insertion order, which is one admissible
order (theorems about `Save` depend only on what is written per entry, and
the one claim about round-tripping is settled on a single-domain row where
order is irrelevant).

Go slices become `List`, Go `string` becomes `String`, Go `int` becomes
`Int`.  A Go runtime panic (index out of range) is modelled by an `Option`
result: `none` is the panic.  `error` returns become `Except LoadErr`.

The XSX parser/writer (`github.com/fractalqb/xsx`) is an external
dependency, not code of this repository: the embedding works at the token
level it provides, i.e. `Load` consumes a parsed header (`table.Definition`:
a list of columns, each a name with a meta flag) and parsed rows (lists of
`gem.Expr`: atoms carrying a string and a meta flag, or non-atom
expressions), and `Save` produces the same token-level structure that the
XSX pretty printer would serialize.  Row/column count mismatches are
surfaced by the external table layer as errors, modelled by `.rowShape`.
-/

set_option autoImplicit false

namespace Namemap

/-- Go map semantics for `map[string]V`: lookup by key (keys are unique). -/
def mapFind {α : Type} (m : List (String × α)) (k : String) : Option α :=
  match m with
  | [] => none
  | (k₁, v) :: r => if k₁ = k then some v else mapFind r k

/-- Go map semantics for `m[k] = v`: overwrite the existing key or append. -/
def mapInsert {α : Type} (m : List (String × α)) (k : String) (v : α) :
    List (String × α) :=
  match m with
  | [] => [(k, v)]
  | (k₁, v₁) :: r =>
    if k₁ = k then (k, v) :: r else (k₁, v₁) :: mapInsert r k v

/-- `type terms = []string` (a Row: one slot per domain). -/
abbrev Terms := List String

/-- `type termMap = map[string]terms`. -/
abbrev TermMap := List (String × Terms)

/-- The `NameMap` struct: domain-name→index map, standard-domain index,
and the per-domain term indices. -/
structure NameMap where
  domIdxs : List (String × Int)
  stdDom : Int
  trmMaps : List TermMap
  deriving DecidableEq, Repr

/-- `NameMap.DomainIdx`: index of a domain name, `-1` if unknown. -/
def NameMap.DomainIdx (nm : NameMap) (domain : String) : Int :=
  match mapFind nm.domIdxs domain with
  | some idx => idx
  | none => -1

/-- The loop body of `NameMap.Map` over `toDomains`, after the row `trms`
for `term` was found: skip out-of-range indices and empty slots, return the
first non-empty slot with its domain index, else `(term, -1)`. -/
def mapLoop (trms : Terms) (term : String) : List Int → String × Int
  | [] => (term, -1)
  | toD :: rest =>
    if toD < 0 ∨ (trms.length : Int) ≤ toD then mapLoop trms term rest
    else if 0 < (trms.getD toD.toNat "").length then (trms.getD toD.toNat "", toD)
    else mapLoop trms term rest

/-- `NameMap.Map`.  The Go code indexes `nm.trmMaps[fromDomain]` without a
bounds check, so an out-of-range `fromDomain` panics: modelled as `none`. -/
def NameMap.Map (nm : NameMap) (fromDomain : Int) (term : String)
    (toDomains : List Int) : Option (String × Int) :=
  if 0 ≤ fromDomain ∧ fromDomain < (nm.trmMaps.length : Int) then
    match mapFind (nm.trmMaps.getD fromDomain.toNat []) term with
    | some trms => some (mapLoop trms term toDomains)
    | none => some (term, -1)
  else none

/-- `NameMap.MapNm`: resolve the names, short-circuit when `fromNm` is
unknown, else delegate to `Map`. -/
def NameMap.MapNm (nm : NameMap) (fromNm : String) (term : String)
    (toNames : List String) : Option (String × Int) :=
  let fromIdx := nm.DomainIdx fromNm
  if fromIdx < 0 then some (term, -1)
  else nm.Map fromIdx term (toNames.map nm.DomainIdx)

/-! ## Loading -/

/-- A column of the parsed table header (`table.Definition` entry): domain
name plus the meta flag marking the standard domain. -/
structure Col where
  name : String
  meta : Bool
  deriving DecidableEq, Repr

/-- A parsed row item (`gem.Expr`): an atom (string plus meta flag), or any
non-atom expression. -/
inductive Gexpr where
  | atom (str : String) (meta : Bool)
  | other
  deriving DecidableEq, Repr

/-- Token-level input to `Load`: the parsed header and the parsed rows. -/
structure NmInput where
  header : List Col
  rows : List (List Gexpr)
  deriving DecidableEq, Repr

/-- The load errors of `namemap.go` (`.rowShape` stands for the external
table layer's error on a row/column count mismatch). -/
inductive LoadErr where
  | dupDomain
  | ambiguousStd
  | emptyDoms
  | notAtom
  | rowShape
  deriving DecidableEq, Repr

/-- The loop of `loadDoms` over the header columns: assign index `i` to
column `i`, error on a duplicate name or a second meta flag. -/
def loadDomsGo (i : Nat) (acc : List (String × Int)) (std : Int) :
    List Col → Except LoadErr (List (String × Int) × Int)
  | [] => .ok (acc, std)
  | c :: rest =>
    if (mapFind acc c.name).isSome then .error .dupDomain
    else
      let acc₁ := mapInsert acc c.name (i : Int)
      if c.meta then
        if 0 ≤ std then .error .ambiguousStd
        else loadDomsGo (i + 1) acc₁ (i : Int) rest
      else loadDomsGo (i + 1) acc₁ std rest

/-- `NameMap.loadDoms`: build the domain registry from the header; error on
an empty domain set. -/
def loadDoms (cols : List Col) : Except LoadErr (List (String × Int) × Int) :=
  match loadDomsGo 0 [] (-1) cols with
  | .ok (acc, std) =>
    if acc.length = 0 then .error .emptyDoms else .ok (acc, std)
  | .error e => .error e

/-- The slot string a row item contributes in `loadTerm`: a meta atom is an
empty slot, a plain atom is its string, a non-atom is an error. -/
def slotVal : Gexpr → Except LoadErr String
  | .atom s m => .ok (if m then "" else s)
  | .other => .error .notAtom

/-- The full `tStrs` slice built by `loadTerm`: `make([]string, len(term))`
initialises every slot to `""`; the loop fills slots `0 ≤ i < n` from the
row items (`n` = number of domains); slots beyond `n` stay `""`. -/
def rowStrs (n : Nat) (row : List Gexpr) : Except LoadErr Terms :=
  match n, row with
  | 0, rest => .ok (rest.map fun _ => "")
  | _ + 1, [] => .error .rowShape
  | n₁ + 1, g :: rest =>
    match slotVal g with
    | .ok s =>
      match rowStrs n₁ rest with
      | .ok tl => .ok (s :: tl)
      | .error e => .error e
    | .error e => .error e

/-- The registration pass of `loadTerm`: for each domain `i` whose row item
is a plain (non-meta) atom, point `trmMaps[i][atom.Str]` at the shared row
`tStrs`.  The Go code stores the slice pointer, so every entry sees the
completed row; here the completed `tStrs` is passed in. -/
def regRow (tStrs : Terms) : List Gexpr → List TermMap → List TermMap
  | _, [] => []
  | [], tms => tms
  | g :: grest, tm :: tmrest =>
    (match g with
     | .atom s false => mapInsert tm s tStrs
     | _ => tm) :: regRow tStrs grest tmrest

/-- `loadTerm` for one row (build `tStrs`, then register it), threaded over
all rows by `Load`'s row loop. -/
def loadRows (n : Nat) (tms : List TermMap) :
    List (List Gexpr) → Except LoadErr (List TermMap)
  | [] => .ok tms
  | row :: rest =>
    match rowStrs n row with
    | .ok tStrs => loadRows n (regRow tStrs row tms) rest
    | .error e => .error e

/-- `NameMap.Load` over token-level input. -/
def NameMap.Load (inp : NmInput) : Except LoadErr NameMap :=
  match loadDoms inp.header with
  | .ok (doms, std) =>
    match loadRows doms.length (List.replicate doms.length []) inp.rows with
    | .ok tms => .ok ⟨doms, std, tms⟩
    | .error e => .error e
  | .error e => .error e

/-! ## Saving -/

/-- `NameMap.Save` at the token level: the header atom for each domain
carries the meta flag iff it is the standard domain; then one row per entry
of the standard domain's term map, every slot written as a plain atom
(`xpr.Atom(term, false, xsx.Qcond)` — no meta flag, no placeholder).
`nm.trmMaps[nm.stdDom]` panics when `stdDom` is out of range: `none`. -/
def NameMap.Save (nm : NameMap) : Option NmInput :=
  if 0 ≤ nm.stdDom ∧ nm.stdDom < (nm.trmMaps.length : Int) then
    let header := nm.domIdxs.map fun p => Col.mk p.1 (p.2 = nm.stdDom)
    let stdTMap := nm.trmMaps.getD nm.stdDom.toNat []
    let rows := stdTMap.map fun p => p.2.map fun t => Gexpr.atom t false
    some ⟨header, rows⟩
  else none

/-! ## Views -/

/-- The `UnknownDomain` error value of the view algebra. -/
structure UnknownDomain where
  mapHint : String
  domainHint : String
  deriving DecidableEq, Repr

/-- The `To` view: a NameMap with a bound ordered target-index list. -/
structure To where
  nmap : NameMap
  tIdxs : List Int
  deriving DecidableEq, Repr

/-- The loop of `NameMap.To`: collect the indices of the resolvable names
in order (`idx >= 0`), remembering whether the standard domain was among
them (`haveStd = haveStd || (idx == nm.stdDom)`). -/
def toBind (nm : NameMap) : List String → List Int × Bool
  | [] => ([], false)
  | d :: rest =>
    if 0 ≤ nm.DomainIdx d then
      (nm.DomainIdx d :: (toBind nm rest).1,
       (nm.DomainIdx d == nm.stdDom) || (toBind nm rest).2)
    else toBind nm rest

/-- `NameMap.To`: bind the resolvable target domains; append the standard
domain iff `appendStd` and it is not already among the resolved indices. -/
def NameMap.To (nm : NameMap) (appendStd : Bool) (toDomains : List String) :
    To :=
  ⟨nm,
   if appendStd && !(toBind nm toDomains).2 then
     (toBind nm toDomains).1 ++ [nm.stdDom]
   else (toBind nm toDomains).1⟩

/-- `To.Check`: an `UnknownDomain` error iff the bound list is empty. -/
def To.Check (t : To) (mapHint : String) (domainHint : String) :
    Option UnknownDomain :=
  if t.tIdxs.length = 0 then some ⟨mapHint, domainHint⟩ else none

/-- The loop of `To.Map`: try each bound target in order, returning the
position `dIdx` within the bound list on a match. -/
def toMapLoop (nm : NameMap) (fromDomain : Int) (term : String) (dIdx : Nat) :
    List Int → Option (String × Int)
  | [] => some (term, -1)
  | tDom :: rest =>
    match nm.Map fromDomain term [tDom] with
    | some (mapped, domain) =>
      if 0 ≤ domain then some (mapped, (dIdx : Int))
      else toMapLoop nm fromDomain term (dIdx + 1) rest
    | none => none

/-- `To.Map`: first matching bound target wins; the returned indicator is
the position within the bound list. -/
def To.Map (t : To) (fromDomain : Int) (term : String) :
    Option (String × Int) :=
  toMapLoop t.nmap fromDomain term 0 t.tIdxs

/-- The `FromTo` view: a `To` view with a bound source-domain index. -/
structure FromTo where
  tomap : To
  fIdx : Int
  deriving DecidableEq, Repr

/-- `FromTo.Map` delegates to `To.Map` with the bound source index. -/
def FromTo.Map (ft : FromTo) (term : String) : Option (String × Int) :=
  ft.tomap.Map ft.fIdx term

/-! ## Helper lemmas -/

theorem string_len_pos (s : String) : 0 < s.length ↔ s ≠ "" := by
  rw [← String.length_data, List.length_pos]
  constructor
  · intro h he
    apply h
    rw [he]
  · intro h hd
    exact h (String.ext hd)

/-- Specification-side predicate for `Map`'s target scan (from the spec's
words): the candidate index is in range and the row's slot there is a
non-empty string. -/
def isHit (trms : Terms) (toD : Int) : Bool :=
  decide (0 ≤ toD ∧ toD < (trms.length : Int) ∧ trms.getD toD.toNat "" ≠ "")

/-- The `Map` loop is first-match-wins over `isHit`: it returns the slot
and index of the first hit in `toDomains`, else `(term, -1)`. -/
theorem mapLoop_eq_find (trms : Terms) (term : String) (l : List Int) :
    mapLoop trms term l =
      (match l.find? (isHit trms) with
       | some toD => (trms.getD toD.toNat "", toD)
       | none => (term, -1)) := by
  induction l with
  | nil => rfl
  | cons toD rest ih =>
    by_cases hh : isHit trms toD = true
    · have hprop := of_decide_eq_true hh
      have hnr : ¬(toD < 0 ∨ (trms.length : Int) ≤ toD) := by
        push_neg
        exact ⟨hprop.1, hprop.2.1⟩
      have hlen : 0 < (trms.getD toD.toNat "").length :=
        (string_len_pos _).mpr hprop.2.2
      rw [List.find?_cons_of_pos _ hh]
      simp only [mapLoop]
      rw [if_neg hnr, if_pos hlen]
    · rw [List.find?_cons_of_neg _ hh, ← ih]
      simp only [mapLoop]
      by_cases hr : toD < 0 ∨ (trms.length : Int) ≤ toD
      · rw [if_pos hr]
      · have hlen : ¬0 < (trms.getD toD.toNat "").length := by
          intro hlen
          apply hh
          apply decide_eq_true
          push_neg at hr
          exact ⟨hr.1, hr.2, (string_len_pos _).mp hlen⟩
        rw [if_neg hr, if_neg hlen]

/-- Every result of the `Map` loop is either a genuine hit (non-negative
index, non-empty string) or the `(term, -1)` echo. -/
theorem mapLoop_cases (trms : Terms) (term m : String) (d : Int)
    (l : List Int) (h : mapLoop trms term l = (m, d)) :
    (0 ≤ d ∧ 0 < m.length) ∨ (m = term ∧ d = -1) := by
  induction l with
  | nil =>
    simp only [mapLoop] at h
    rw [Prod.mk.injEq] at h
    exact Or.inr ⟨h.1.symm, h.2.symm⟩
  | cons toD rest ih =>
    simp only [mapLoop] at h
    by_cases hr : toD < 0 ∨ (trms.length : Int) ≤ toD
    · rw [if_pos hr] at h
      exact ih h
    · rw [if_neg hr] at h
      by_cases hlen : 0 < (trms.getD toD.toNat "").length
      · rw [if_pos hlen] at h
        rw [Prod.mk.injEq] at h
        push_neg at hr
        rw [← h.1, ← h.2]
        exact Or.inl ⟨hr.1, hlen⟩
      · rw [if_neg hlen] at h
        exact ih h

/-! ## Structural facts about loading -/

theorem mapFind_mem {α : Type} (m : List (String × α)) (k : String) (v : α)
    (h : mapFind m k = some v) : (k, v) ∈ m := by
  induction m with
  | nil => exact absurd h (by simp [mapFind])
  | cons p r ih =>
    obtain ⟨k₁, v₁⟩ := p
    simp only [mapFind] at h
    by_cases hk : k₁ = k
    · rw [if_pos hk] at h
      injection h with h₁
      rw [← hk, ← h₁]
      exact List.mem_cons_self ..
    · rw [if_neg hk] at h
      exact List.mem_cons_of_mem _ (ih h)

theorem mapInsert_fresh {α : Type} (m : List (String × α)) (k : String) (v : α)
    (h : mapFind m k = none) : mapInsert m k v = m ++ [(k, v)] := by
  induction m with
  | nil => rfl
  | cons p r ih =>
    obtain ⟨k₁, v₁⟩ := p
    simp only [mapFind] at h
    simp only [mapInsert]
    by_cases hk : k₁ = k
    · rw [if_pos hk] at h
      exact absurd h (by simp)
    · rw [if_neg hk] at h
      rw [if_neg hk, ih h]
      rfl

/-- The header loop assigns each domain an index below the final domain
count: the values in the accumulator stay below the running index. -/
theorem loadDomsGo_bound (cols : List Col) :
    ∀ (i : Nat) (acc : List (String × Int)) (std : Int)
      (acc₁ : List (String × Int)) (std₁ : Int),
      loadDomsGo i acc std cols = .ok (acc₁, std₁) →
      (∀ p ∈ acc, 0 ≤ p.2 ∧ p.2 < (i : Int)) →
      (∀ p ∈ acc₁, 0 ≤ p.2 ∧ p.2 < ((i + cols.length : Nat) : Int)) ∧
        acc₁.length = acc.length + cols.length := by
  induction cols with
  | nil =>
    intro i acc std acc₁ std₁ h hb
    simp only [loadDomsGo] at h
    injection h with h₁
    rw [Prod.mk.injEq] at h₁
    rw [← h₁.1]
    exact ⟨by simpa using hb, by simp⟩
  | cons c rest ih =>
    intro i acc std acc₁ std₁ h hb
    simp only [loadDomsGo] at h
    by_cases hdup : (mapFind acc c.name).isSome
    · rw [if_pos hdup] at h
      exact absurd h (by simp)
    · rw [if_neg hdup] at h
      have hnone : mapFind acc c.name = none := by
        cases hf : mapFind acc c.name
        · rfl
        · rw [hf] at hdup
          exact absurd rfl hdup
      have hins : mapInsert acc c.name (i : Int) = acc ++ [(c.name, (i : Int))] :=
        mapInsert_fresh acc c.name _ hnone
      have hb₁ : ∀ p ∈ mapInsert acc c.name (i : Int),
          0 ≤ p.2 ∧ p.2 < ((i + 1 : Nat) : Int) := by
        rw [hins]
        intro p hp
        rcases List.mem_append.mp hp with hl | hr
        · have := hb p hl
          constructor
          · exact this.1
          · calc p.2 < (i : Int) := this.2
              _ < ((i + 1 : Nat) : Int) := by push_cast; omega
        · rw [List.mem_singleton.mp hr]
          constructor
          · exact Int.ofNat_nonneg i
          · push_cast
            omega
      have hlen₁ : (mapInsert acc c.name (i : Int)).length = acc.length + 1 := by
        rw [hins]
        simp
      by_cases hm : c.meta
      · rw [if_pos hm] at h
        by_cases hstd : 0 ≤ std
        · rw [if_pos hstd] at h
          exact absurd h (by simp)
        · rw [if_neg hstd] at h
          have := ih (i + 1) _ _ _ _ h hb₁
          refine ⟨fun p hp => ?_, ?_⟩
          · have hbd := this.1 p hp
            refine ⟨hbd.1, ?_⟩
            calc p.2 < ((i + 1 + rest.length : Nat) : Int) := hbd.2
              _ = ((i + (rest.length + 1) : Nat) : Int) := by push_cast; omega

          · rw [this.2, hlen₁]
            simp only [List.length_cons]
            omega
      · rw [if_neg hm] at h
        have := ih (i + 1) _ _ _ _ h hb₁
        refine ⟨fun p hp => ?_, ?_⟩
        · have hbd := this.1 p hp
          refine ⟨hbd.1, ?_⟩
          calc p.2 < ((i + 1 + rest.length : Nat) : Int) := hbd.2
            _ = ((i + (rest.length + 1) : Nat) : Int) := by push_cast; omega
        · rw [this.2, hlen₁]
          simp only [List.length_cons]
          omega

theorem regRow_length (tStrs : Terms) (row : List Gexpr) (tms : List TermMap) :
    (regRow tStrs row tms).length = tms.length := by
  induction row generalizing tms with
  | nil =>
    cases tms with
    | nil => rfl
    | cons tm tmrest => rfl
  | cons g grest ih =>
    cases tms with
    | nil => rfl
    | cons tm tmrest =>
      simp only [regRow, List.length_cons]
      rw [ih]

theorem loadRows_length (rows : List (List Gexpr)) :
    ∀ (n : Nat) (tms tms₁ : List TermMap),
      loadRows n tms rows = .ok tms₁ → tms₁.length = tms.length := by
  induction rows with
  | nil =>
    intro n tms tms₁ h
    simp only [loadRows] at h
    injection h with h₁
    rw [h₁]
  | cons row rest ih =>
    intro n tms tms₁ h
    simp only [loadRows] at h
    cases hr : rowStrs n row with
    | ok tStrs =>
      rw [hr] at h
      have := ih n _ _ h
      rw [this, regRow_length]
    | error e =>
      rw [hr] at h
      exact absurd h (by simp)

/-- A loaded NameMap is well formed: every registered domain index is a
valid position in the term-map array. -/
theorem Load_wellFormed (inp : NmInput) (nm : NameMap)
    (h : NameMap.Load inp = .ok nm) :
    ∀ p ∈ nm.domIdxs, 0 ≤ p.2 ∧ p.2 < (nm.trmMaps.length : Int) := by
  simp only [NameMap.Load] at h
  split at h
  · rename_i doms std hd
    split at h
    · rename_i tms hr
      injection h with h₁
      have hlen : tms.length = doms.length := by
        rw [loadRows_length _ _ _ _ hr]
        simp
      simp only [loadDoms] at hd
      split at hd
      · rename_i acc std₀ hg
        by_cases hz : acc.length = 0
        · rw [if_pos hz] at hd
          exact absurd hd (by simp)
        · rw [if_neg hz] at hd
          injection hd with hd₁
          rw [Prod.mk.injEq] at hd₁
          have hbound := loadDomsGo_bound inp.header 0 [] (-1) acc std₀ hg
            (by intro p hp; exact absurd hp (List.not_mem_nil p))
          intro p hp
          rw [← h₁] at hp
          simp only at hp
          have hmem := hbound.1 p (hd₁.1 ▸ hp)
          refine ⟨hmem.1, ?_⟩
          rw [← h₁]
          simp only
          rw [hlen, ← hd₁.1]
          have hl := hbound.2
          simp only [List.length_nil, Nat.zero_add] at hl
          calc p.2 < ((0 + inp.header.length : Nat) : Int) := hmem.2
            _ = ((acc.length : Nat) : Int) := by rw [hl]; push_cast; omega
      · rename_i e hg
        exact absurd hd (by simp)
    · rename_i e hr
      exact absurd h (by simp)
  · rename_i e hd
    exact absurd h (by simp)

theorem mapFind_insert_self {α : Type} (m : List (String × α)) (k : String)
    (v : α) : mapFind (mapInsert m k v) k = some v := by
  induction m with
  | nil => simp [mapInsert, mapFind]
  | cons p r ih =>
    obtain ⟨k₁, v₁⟩ := p
    by_cases hk : k₁ = k
    · simp [mapInsert, hk, mapFind]
    · simp only [mapInsert, hk, if_false, mapFind, if_neg hk]
      exact ih

theorem mapFind_insert_isSome {α : Type} (m : List (String × α))
    (k k₁ : String) (v : α) (h : (mapFind m k₁).isSome) :
    (mapFind (mapInsert m k v) k₁).isSome := by
  by_cases he : k = k₁
  · rw [he, mapFind_insert_self]
    rfl
  · induction m with
    | nil => simp [mapFind] at h
    | cons p r ih =>
      obtain ⟨k₂, v₂⟩ := p
      by_cases hk : k₂ = k
      · have hne : k₂ ≠ k₁ := by
          rw [hk]
          exact he
        simp only [mapInsert, hk, if_true, mapFind]
        rw [if_neg he]
        simp only [mapFind] at h
        rw [if_neg hne] at h
        exact h
      · simp only [mapInsert, hk, if_false, mapFind]
        simp only [mapFind] at h
        by_cases h₂ : k₂ = k₁
        · rw [if_pos h₂]
          rfl
        · rw [if_neg h₂]
          rw [if_neg h₂] at h
          exact ih h

/-- The header loop fails whenever a column name is already registered or
the remaining columns repeat a name. -/
theorem loadDomsGo_dup_error (cols : List Col) :
    ∀ (i : Nat) (acc : List (String × Int)) (std : Int),
      ((∃ c ∈ cols, (mapFind acc c.name).isSome) ∨
        ¬(cols.map Col.name).Nodup) →
      ∃ e, loadDomsGo i acc std cols = .error e := by
  induction cols with
  | nil =>
    intro i acc std h
    rcases h with ⟨c, hc, _⟩ | hnd
    · exact absurd hc (List.not_mem_nil c)
    · rw [List.map_nil] at hnd
      exact absurd List.nodup_nil hnd
  | cons c rest ih =>
    intro i acc std h
    by_cases hdup : (mapFind acc c.name).isSome
    · refine ⟨.dupDomain, ?_⟩
      simp only [loadDomsGo, hdup, if_true]
    · have hrest : (∃ c₁ ∈ rest,
          (mapFind (mapInsert acc c.name (i : Int)) c₁.name).isSome) ∨
          ¬(rest.map Col.name).Nodup := by
        rcases h with ⟨c₁, hc₁, hsome⟩ | hnd
        · rcases List.mem_cons.mp hc₁ with he | hr
          · rw [he] at hsome
            exact absurd hsome hdup
          · exact Or.inl ⟨c₁, hr, mapFind_insert_isSome _ _ _ _ hsome⟩
        · rw [List.map_cons, List.nodup_cons] at hnd
          push_neg at hnd
          by_cases hmem : c.name ∈ rest.map Col.name
          · obtain ⟨c₁, hc₁, hname⟩ := List.mem_map.mp hmem
            refine Or.inl ⟨c₁, hc₁, ?_⟩
            rw [hname, mapFind_insert_self]
            rfl
          · exact Or.inr (hnd hmem)
      by_cases hm : c.meta
      · by_cases hs : 0 ≤ std
        · exact ⟨.ambiguousStd, by simp [loadDomsGo, hdup, hm, hs]⟩
        · obtain ⟨e, he⟩ := ih (i + 1) (mapInsert acc c.name (i : Int))
            (i : Int) hrest
          exact ⟨e, by simp [loadDomsGo, hdup, hm, hs, he]⟩
      · obtain ⟨e, he⟩ := ih (i + 1) (mapInsert acc c.name (i : Int)) std hrest
        exact ⟨e, by simp [loadDomsGo, hdup, hm, he]⟩

/-- The header loop fails whenever two of the remaining columns carry the
standard-domain marker, or one does while a standard domain is already
set. -/
theorem loadDomsGo_meta_error (cols : List Col) :
    ∀ (i : Nat) (acc : List (String × Int)) (std : Int),
      (2 ≤ cols.countP (fun c => c.meta) ∨
        (0 ≤ std ∧ 1 ≤ cols.countP (fun c => c.meta))) →
      ∃ e, loadDomsGo i acc std cols = .error e := by
  induction cols with
  | nil =>
    intro i acc std h
    simp only [List.countP_nil] at h
    omega
  | cons c rest ih =>
    intro i acc std h
    by_cases hdup : (mapFind acc c.name).isSome
    · exact ⟨.dupDomain, by simp only [loadDomsGo, hdup, if_true]⟩
    · by_cases hm : c.meta
      · by_cases hs : 0 ≤ std
        · exact ⟨.ambiguousStd, by simp [loadDomsGo, hdup, hm, hs]⟩
        · have hc1 : (c :: rest).countP (fun c => c.meta)
              = rest.countP (fun c => c.meta) + 1 := by
            rw [List.countP_cons]
            simp [hm]
          have hcnt : 1 ≤ rest.countP (fun c => c.meta) := by
            rcases h with h | h
            · omega
            · exact absurd h.1 hs
          obtain ⟨e, he⟩ := ih (i + 1) (mapInsert acc c.name (i : Int))
            (i : Int) (Or.inr ⟨Int.ofNat_nonneg i, hcnt⟩)
          exact ⟨e, by simp [loadDomsGo, hdup, hm, hs, he]⟩
      · have hc0 : (c :: rest).countP (fun c => c.meta)
            = rest.countP (fun c => c.meta) := by
          rw [List.countP_cons]
          simp [hm]
        rw [hc0] at h
        obtain ⟨e, he⟩ := ih (i + 1) (mapInsert acc c.name (i : Int)) std h
        exact ⟨e, by simp [loadDomsGo, hdup, hm, he]⟩

/-- `rowStrs` fails when some inspected column of the row (a position below
the domain count) holds a non-atom item. -/
theorem rowStrs_error (row : List Gexpr) :
    ∀ (n i : Nat), i < n → row.get? i = some Gexpr.other →
      ∃ e, rowStrs n row = .error e := by
  induction row with
  | nil =>
    intro n i hi hg
    exact absurd hg (by simp)
  | cons g grest ih =>
    intro n i hi hg
    cases n with
    | zero => exact absurd hi (by omega)
    | succ n₁ =>
      cases i with
      | zero =>
        rw [List.get?_cons_zero] at hg
        injection hg with hg₁
        exact ⟨.notAtom, by simp [rowStrs, hg₁, slotVal]⟩
      | succ i₁ =>
        rw [List.get?_cons_succ] at hg
        cases hsv : slotVal g with
        | ok s =>
          obtain ⟨e, he⟩ := ih n₁ i₁ (by omega) hg
          exact ⟨e, by simp [rowStrs, hsv, he]⟩
        | error e =>
          exact ⟨e, by simp [rowStrs, hsv]⟩

/-- The row loop fails when any row of the input makes `rowStrs` fail. -/
theorem loadRows_error (rows : List (List Gexpr)) :
    ∀ (n : Nat) (tms : List TermMap) (row : List Gexpr),
      row ∈ rows → (∃ e, rowStrs n row = .error e) →
      ∃ e, loadRows n tms rows = .error e := by
  induction rows with
  | nil =>
    intro n tms row hmem _
    exact absurd hmem (List.not_mem_nil row)
  | cons r rest ih =>
    intro n tms row hmem herr
    cases hr : rowStrs n r with
    | ok tStrs =>
      rcases List.mem_cons.mp hmem with he | hm
      · obtain ⟨e, he₁⟩ := herr
        rw [he, hr] at he₁
        exact absurd he₁ (by simp)
      · obtain ⟨e, he₁⟩ := ih n (regRow tStrs r tms) row hm herr
        exact ⟨e, by simp [loadRows, hr, he₁]⟩
    | error e =>
      exact ⟨e, by simp [loadRows, hr]⟩

theorem Load_error_of_loadDoms (inp : NmInput) (e : LoadErr)
    (h : loadDoms inp.header = .error e) : NameMap.Load inp = .error e := by
  simp only [NameMap.Load, h]

theorem Load_error_of_loadRows (inp : NmInput) (doms : List (String × Int))
    (std : Int) (e : LoadErr)
    (hd : loadDoms inp.header = .ok (doms, std))
    (h : loadRows doms.length (List.replicate doms.length []) inp.rows =
      .error e) :
    NameMap.Load inp = .error e := by
  simp only [NameMap.Load, hd, h]

/-- When `loadDoms` succeeds, it registers exactly one domain per header
column. -/
theorem loadDoms_length (cols : List Col) (doms : List (String × Int))
    (std : Int) (h : loadDoms cols = .ok (doms, std)) :
    doms.length = cols.length := by
  simp only [loadDoms] at h
  split at h
  · rename_i acc std₀ hg
    by_cases hz : acc.length = 0
    · rw [if_pos hz] at h
      exact absurd h (by simp)
    · rw [if_neg hz] at h
      injection h with h₁
      rw [Prod.mk.injEq] at h₁
      have hbound := loadDomsGo_bound cols 0 [] (-1) acc std₀ hg
        (by intro p hp; exact absurd hp (List.not_mem_nil p))
      rw [← h₁.1, hbound.2]
      simp
  · rename_i e hg
    exact absurd h (by simp)

/-- The first row of the package-doc definition. -/
def exRow1 : Terms := ["note", "rem", "remark", ""]

/-- The second row of the package-doc definition. -/
def exRow2 : Terms := ["warn", "warnig", "warning", "Warnung"]

/-- The package-doc definition at token level:
`[\input output l10n:EN l10n:DE] (note rem remark \undef) (warn warnig warning Warnung)`. -/
def exInp : NmInput :=
  ⟨[⟨"input", true⟩, ⟨"output", false⟩, ⟨"l10n:EN", false⟩, ⟨"l10n:DE", false⟩],
   [[.atom "note" false, .atom "rem" false, .atom "remark" false, .atom "undef" true],
    [.atom "warn" false, .atom "warnig" false, .atom "warning" false,
     .atom "Warnung" false]]⟩

/-- The NameMap that loading `exInp` produces. -/
def exNm : NameMap :=
  ⟨[("input", 0), ("output", 1), ("l10n:EN", 2), ("l10n:DE", 3)], 0,
   [[("note", exRow1), ("warn", exRow2)],
    [("rem", exRow1), ("warnig", exRow2)],
    [("remark", exRow1), ("warning", exRow2)],
    [("Warnung", exRow2)]]⟩

theorem load_exInp : NameMap.Load exInp = Except.ok exNm := rfl

/-- A definition with a duplicate term key in domain `a`:
`[a b] (k x) (k y)` — the second row overwrites `a`'s entry for `"k"`. -/
def c5Inp : NmInput :=
  ⟨[⟨"a", false⟩, ⟨"b", false⟩],
   [[.atom "k" false, .atom "x" false], [.atom "k" false, .atom "y" false]]⟩

/-- The NameMap that loading `c5Inp` produces. -/
def c5Nm : NameMap :=
  ⟨[("a", 0), ("b", 1)], -1,
   [[("k", ["k", "y"])], [("x", ["k", "x"]), ("y", ["k", "y"])]]⟩

theorem load_c5Inp : NameMap.Load c5Inp = Except.ok c5Nm := rfl

/-- A header that declares the domain name `a` twice. -/
def c6Inp : NmInput := ⟨[⟨"a", false⟩, ⟨"a", false⟩], []⟩

/-- A definition with one row whose slot in domain `b` is empty:
`[\a b] (x \m)`. -/
def c4Inp : NmInput :=
  ⟨[⟨"a", true⟩, ⟨"b", false⟩], [[.atom "x" false, .atom "m" true]]⟩

/-- The NameMap that loading `c4Inp` produces: domain `b` has an empty
term index. -/
def c4Nm : NameMap :=
  ⟨[("a", 0), ("b", 1)], 0, [[("x", ["x", ""])], []]⟩

/-- What `Save` writes for `c4Nm`: the empty slot becomes a plain (non-meta)
empty atom, since `Save` emits `xpr.Atom(term, false, xsx.Qcond)` for every
slot and takes no placeholder. -/
def c4Saved : NmInput :=
  ⟨[⟨"a", true⟩, ⟨"b", false⟩], [[.atom "x" false, .atom "" false]]⟩

/-- The NameMap that re-loading the saved text produces: domain `b` now
indexes the empty string as a term. -/
def c4Nm2 : NameMap :=
  ⟨[("a", 0), ("b", 1)], 0, [[("x", ["x", ""])], [("", ["x", ""])]]⟩

/-! ## Claims -/

/-- C1 counterexample: on the NameMap loaded from the package-doc
definition (4 domains), `Map` with the out-of-range `fromDomain = 5`
panics (the Go code indexes `nm.trmMaps[5]`, modelled as `none`) instead
of returning the claimed no-match result `("x", -1)`. -/
theorem C1_counterexample :
    NameMap.Load exInp = Except.ok exNm ∧
      NameMap.Map exNm 5 "x" [] = none ∧
      NameMap.Map exNm 5 "x" [] ≠ some ("x", -1) :=
  ⟨rfl, rfl, by decide⟩

/-- C1 amended: for a loaded NameMap, `Map` never fails for any
`fromDomain` within the range of valid domain indices (absence of a match
is signalled via the `-1` indicator), and `MapNm` never fails for any
input (an unresolvable `fromNm` short-circuits to `(term, -1)`); but `Map`
applied to an out-of-range `fromDomain` index panics on the term-map array
access rather than returning another domain's data. -/
theorem C1_amended (inp : NmInput) (nm : NameMap)
    (hload : NameMap.Load inp = .ok nm) :
    (∀ (fromDomain : Int) (term : String) (toDomains : List Int),
        0 ≤ fromDomain → fromDomain < (nm.trmMaps.length : Int) →
        (nm.Map fromDomain term toDomains).isSome) ∧
      (∀ (fromNm term : String) (toNames : List String),
        (nm.MapNm fromNm term toNames).isSome) := by
  have hmap : ∀ (fromDomain : Int) (term : String) (toDomains : List Int),
      0 ≤ fromDomain → fromDomain < (nm.trmMaps.length : Int) →
      (nm.Map fromDomain term toDomains).isSome := by
    intro fromDomain term toDomains h0 h1
    simp only [NameMap.Map]
    rw [if_pos ⟨h0, h1⟩]
    cases mapFind (nm.trmMaps.getD fromDomain.toNat []) term
    · simp
    · simp
  refine ⟨hmap, fun fromNm term toNames => ?_⟩
  have hwf := Load_wellFormed inp nm hload
  simp only [NameMap.MapNm]
  by_cases hneg : nm.DomainIdx fromNm < 0
  · rw [if_pos hneg]
    rfl
  · rw [if_neg hneg]
    cases hf : mapFind nm.domIdxs fromNm with
    | some idx =>
      have hmem := hwf (fromNm, idx) (mapFind_mem _ _ _ hf)
      apply hmap
      · simp only [NameMap.DomainIdx, hf]
        exact hmem.1
      · simp only [NameMap.DomainIdx, hf]
        exact hmem.2
    | none =>
      simp only [NameMap.DomainIdx, hf] at hneg
      exact absurd (by decide) hneg

theorem C1_witness :
    (NameMap.Map exNm 3 "Warnung" [0]).isSome ∧
      (NameMap.MapNm exNm "zzz" "q" ["input"]).isSome :=
  ⟨(C1_amended exInp exNm load_exInp).1 3 "Warnung" [0] (by decide) (by decide),
   (C1_amended exInp exNm load_exInp).2 "zzz" "q" ["input"]⟩

/-- C2: for a valid `fromDomain` and a registered `term`, `Map` returns the
row's slot value and domain index for the first element of `toDomains` (in
the caller-supplied order) whose index is in range and whose slot is a
non-empty string — skipping out-of-range indices and empty slots — and
`(term, -1)` when no such element exists. -/
theorem C2_map_first_match (nm : NameMap) (fromDomain : Int) (term : String)
    (toDomains : List Int) (trms : Terms)
    (h0 : 0 ≤ fromDomain) (h1 : fromDomain < (nm.trmMaps.length : Int))
    (h2 : mapFind (nm.trmMaps.getD fromDomain.toNat []) term = some trms) :
    nm.Map fromDomain term toDomains =
      some (match toDomains.find? (isHit trms) with
            | some toD => (trms.getD toD.toNat "", toD)
            | none => (term, -1)) := by
  simp only [NameMap.Map]
  rw [if_pos ⟨h0, h1⟩, h2]
  show some (mapLoop trms term toDomains) = _
  rw [mapLoop_eq_find]

theorem C2_witness : NameMap.Map exNm 0 "warn" [5, 3, 2] = some ("Warnung", 3) := by
  have h := C2_map_first_match exNm 0 "warn" [5, 3, 2] exRow2
    (by decide) (by decide) (by decide)
  rw [h]
  decide

/-- C3: for a valid `fromDomain` and a `term` absent from its term index,
`Map` echoes `(term, -1)` for every target list. -/
theorem C3_absent_echo (nm : NameMap) (fromDomain : Int) (term : String)
    (toDomains : List Int)
    (h0 : 0 ≤ fromDomain) (h1 : fromDomain < (nm.trmMaps.length : Int))
    (h2 : mapFind (nm.trmMaps.getD fromDomain.toNat []) term = none) :
    nm.Map fromDomain term toDomains = some (term, -1) := by
  simp only [NameMap.Map]
  rw [if_pos ⟨h0, h1⟩, h2]

theorem C3_witness : NameMap.Map exNm 0 "nope" [1, 2, 3] = some ("nope", -1) :=
  C3_absent_echo exNm 0 "nope" [1, 2, 3] (by decide) (by decide) (by decide)

/-- C9: whenever `Map` returns (without panicking) a domain indicator `≥ 0`,
the mapped string is non-empty; an empty mapped string comes only with the
`-1` indicator, as the echo of the input term. -/
theorem C9_nonempty_on_match (nm : NameMap) (fromDomain : Int)
    (term m : String) (d : Int) (toDomains : List Int)
    (h : nm.Map fromDomain term toDomains = some (m, d)) :
    (0 ≤ d → m ≠ "") ∧ (m = "" → d = -1 ∧ m = term) := by
  simp only [NameMap.Map] at h
  by_cases hr : 0 ≤ fromDomain ∧ fromDomain < (nm.trmMaps.length : Int)
  · rw [if_pos hr] at h
    cases hf : mapFind (nm.trmMaps.getD fromDomain.toNat []) term with
    | some trms =>
      rw [hf] at h
      injection h with h₁
      rcases mapLoop_cases trms term m d toDomains h₁ with ⟨hd, hlen⟩ | ⟨hm, hd⟩
      · refine ⟨fun _ => (string_len_pos m).mp hlen, fun hme => ?_⟩
        rw [hme] at hlen
        exact absurd hlen (by decide)
      · refine ⟨fun h0d => ?_, fun _ => ⟨hd, hm⟩⟩
        rw [hd] at h0d
        exact absurd h0d (by decide)
    | none =>
      rw [hf] at h
      injection h with h₁
      rw [Prod.mk.injEq] at h₁
      refine ⟨fun h0d => ?_, fun _ => ⟨h₁.2.symm, h₁.1.symm⟩⟩
      rw [← h₁.2] at h0d
      exact absurd h0d (by decide)
  · rw [if_neg hr] at h
    exact absurd h (by simp)

/-- `Map` on a single in-range target whose row slot is the non-empty
string `cross` returns `(cross, target)`. -/
theorem map_single_hit (nm : NameMap) (d e : Int) (term cross : String)
    (r : Terms)
    (h1 : 0 ≤ d) (h2 : d < (nm.trmMaps.length : Int))
    (hf : mapFind (nm.trmMaps.getD d.toNat []) term = some r)
    (h3 : 0 ≤ e) (hs : r.getD e.toNat "" = cross) (hc : cross ≠ "") :
    nm.Map d term [e] = some (cross, e) := by
  have her : e.toNat < r.length := by
    by_contra hge
    push_neg at hge
    rw [List.getD_eq_default _ _ hge] at hs
    exact hc hs.symm
  have herI : e < (r.length : Int) := by omega
  simp only [NameMap.Map]
  rw [if_pos ⟨h1, h2⟩, hf]
  show some (mapLoop r term [e]) = _
  simp only [mapLoop]
  rw [if_neg (by omega), if_pos (hs ▸ (string_len_pos cross).mpr hc), hs]

/-- C5 counterexample: load `[a b] (k x) (k y)`.  The Row `["k", "x"]` has
non-empty slots in both domains (it is still indexed in domain `b` under
`"x"`), yet `Map(a, "k", b)` returns `("y", 1)` — the second row overwrote
domain `a`'s entry for `"k"` — not the claimed `("x", 1)`. -/
theorem C5_counterexample :
    NameMap.Load c5Inp = Except.ok c5Nm ∧
      mapFind (c5Nm.trmMaps.getD 1 []) "x" = some ["k", "x"] ∧
      (["k", "x"].getD 0 "" = "k" ∧ ["k", "x"].getD 1 "" = "x") ∧
      NameMap.Map c5Nm 0 "k" [1] = some ("y", 1) ∧
      NameMap.Map c5Nm 0 "k" [1] ≠ some ("x", 1) :=
  ⟨rfl, rfl, ⟨rfl, rfl⟩, rfl, by decide⟩

/-- C5 amended: for every NameMap and distinct in-range domains `d1`, `d2`
sharing a Row `r` whose slots at `d1` and `d2` are the non-empty strings
`term` and `crossTerm`, **provided the Row is still each domain's current
Term-Index entry for its slot term** (no later duplicate key overwrote it),
mapping is symmetric through the shared Row: `Map(d1, term, d2) =
(crossTerm, d2)` and `Map(d2, crossTerm, d1) = (term, d1)`. -/
theorem C5_amended (nm : NameMap) (d1 d2 : Int) (term crossTerm : String)
    (r : Terms)
    (hne : d1 ≠ d2)
    (h1 : 0 ≤ d1) (h2 : d1 < (nm.trmMaps.length : Int))
    (h3 : 0 ≤ d2) (h4 : d2 < (nm.trmMaps.length : Int))
    (hf1 : mapFind (nm.trmMaps.getD d1.toNat []) term = some r)
    (hf2 : mapFind (nm.trmMaps.getD d2.toNat []) crossTerm = some r)
    (hs1 : r.getD d1.toNat "" = term) (hs2 : r.getD d2.toNat "" = crossTerm)
    (ht : term ≠ "") (hc : crossTerm ≠ "") :
    nm.Map d1 term [d2] = some (crossTerm, d2) ∧
      nm.Map d2 crossTerm [d1] = some (term, d1) :=
  ⟨map_single_hit nm d1 d2 term crossTerm r h1 h2 hf1 h3 hs2 hc,
   map_single_hit nm d2 d1 crossTerm term r h3 h4 hf2 h1 hs1 ht⟩

theorem C5_witness :
    NameMap.Map exNm 0 "warn" [3] = some ("Warnung", 3) ∧
      NameMap.Map exNm 3 "Warnung" [0] = some ("warn", 0) :=
  C5_amended exNm 0 3 "warn" "Warnung" exRow2 (by decide) (by decide)
    (by decide) (by decide) (by decide) (by decide) (by decide)
    (by decide) (by decide) (by decide) (by decide)

/-- Specification-side (from the claim's words): the indices of the
resolvable names, in the given order; unresolvable names are dropped. -/
def resolvedIdxs (nm : NameMap) (names : List String) : List Int :=
  names.filterMap fun d =>
    if 0 ≤ nm.DomainIdx d then some (nm.DomainIdx d) else none

theorem toBind_fst (nm : NameMap) (names : List String) :
    (toBind nm names).1 = resolvedIdxs nm names := by
  induction names with
  | nil => rfl
  | cons d rest ih =>
    by_cases h : 0 ≤ nm.DomainIdx d
    · have hL : (toBind nm (d :: rest)).1
          = nm.DomainIdx d :: (toBind nm rest).1 := by
        simp only [toBind, h, if_true]
      have hR : resolvedIdxs nm (d :: rest)
          = nm.DomainIdx d :: resolvedIdxs nm rest := by
        simp only [resolvedIdxs, List.filterMap_cons, h, if_true]
      rw [hL, hR, ih]
    · have hL : (toBind nm (d :: rest)).1 = (toBind nm rest).1 := by
        simp only [toBind, h, if_false]
      have hR : resolvedIdxs nm (d :: rest) = resolvedIdxs nm rest := by
        simp only [resolvedIdxs, List.filterMap_cons, h, if_false]
      rw [hL, hR, ih]

theorem toBind_snd (nm : NameMap) (names : List String) :
    (toBind nm names).2 = true ↔ nm.stdDom ∈ (toBind nm names).1 := by
  induction names with
  | nil => simp [toBind]
  | cons d rest ih =>
    by_cases h : 0 ≤ nm.DomainIdx d
    · have hL : (toBind nm (d :: rest)).2
          = ((nm.DomainIdx d == nm.stdDom) || (toBind nm rest).2) := by
        simp only [toBind, h, if_true]
      have hM : (toBind nm (d :: rest)).1
          = nm.DomainIdx d :: (toBind nm rest).1 := by
        simp only [toBind, h, if_true]
      rw [hL, hM]
      simp only [Bool.or_eq_true, beq_iff_eq, List.mem_cons]
      constructor
      · intro hor
        rcases hor with he | hr
        · exact Or.inl he.symm
        · exact Or.inr (ih.mp hr)
      · intro hor
        rcases hor with he | hr
        · exact Or.inl he.symm
        · exact Or.inr (ih.mpr hr)
    · have hL : (toBind nm (d :: rest)).2 = (toBind nm rest).2 := by
        simp only [toBind, h, if_false]
      have hM : (toBind nm (d :: rest)).1 = (toBind nm rest).1 := by
        simp only [toBind, h, if_false]
      rw [hL, hM]
      exact ih

/-- The bound target list of a `To` view: the resolvable indices in order,
with the standard domain appended iff requested and not already present. -/
theorem To_tIdxs_eq (nm : NameMap) (appendStd : Bool) (names : List String) :
    (nm.To appendStd names).tIdxs =
      (if appendStd = true ∧ nm.stdDom ∉ resolvedIdxs nm names then
        resolvedIdxs nm names ++ [nm.stdDom]
      else resolvedIdxs nm names) := by
  simp only [NameMap.To]
  by_cases hstd : nm.stdDom ∈ resolvedIdxs nm names
  · have h2 : (toBind nm names).2 = true :=
      (toBind_snd nm names).mpr (by rw [toBind_fst]; exact hstd)
    rw [h2, toBind_fst]
    have : ¬(appendStd = true ∧ nm.stdDom ∉ resolvedIdxs nm names) := by
      intro hcon
      exact hcon.2 hstd
    rw [if_neg this]
    cases appendStd <;> rfl
  · have h2 : (toBind nm names).2 = false := by
      cases hb : (toBind nm names).2
      · rfl
      · exact absurd ((toBind_snd nm names).mp hb) (by rw [toBind_fst]; exact hstd)
    rw [h2, toBind_fst]
    cases appendStd
    · have hc : ¬(false = true ∧ nm.stdDom ∉ resolvedIdxs nm names) := by simp
      rw [if_neg hc]
      rfl
    · have hc : true = true ∧ nm.stdDom ∉ resolvedIdxs nm names := ⟨rfl, hstd⟩
      rw [if_pos hc]
      rfl

/-- C7: `To(appendStd, domainNames...)` binds exactly the indices of the
resolvable names in their given order (unresolvable names are silently
dropped, not errors), and appends the standard-domain index at the end iff
`appendStd` is true and no resolved name already equals the standard
domain; when the standard domain is already present it is not
duplicated. -/
theorem C7_to_binding (nm : NameMap) (appendStd : Bool) (names : List String) :
    (nm.To appendStd names).tIdxs =
      (if appendStd = true ∧ nm.stdDom ∉ resolvedIdxs nm names then
        resolvedIdxs nm names ++ [nm.stdDom]
      else resolvedIdxs nm names) :=
  To_tIdxs_eq nm appendStd names

/-- Members of the resolved index list are non-negative. -/
theorem resolvedIdxs_nonneg (nm : NameMap) (names : List String) :
    ∀ x ∈ resolvedIdxs nm names, 0 ≤ x := by
  intro x hx
  obtain ⟨d, _, hd⟩ := List.mem_filterMap.mp hx
  by_cases h : 0 ≤ nm.DomainIdx d
  · rw [if_pos h] at hd
    injection hd with h₁
    rw [← h₁]
    exact h
  · rw [if_neg h] at hd
    exact absurd hd (by simp)

/-- `Map` on the single target `-1` echoes `(term, -1)` for every valid
source domain: the `-1` index is skipped by the target scan. -/
theorem map_minus_one (nm : NameMap) (fromDomain : Int) (term : String)
    (h0 : 0 ≤ fromDomain) (h1 : fromDomain < (nm.trmMaps.length : Int)) :
    nm.Map fromDomain term [-1] = some (term, -1) := by
  simp only [NameMap.Map]
  rw [if_pos ⟨h0, h1⟩]
  cases mapFind (nm.trmMaps.getD fromDomain.toNat []) term with
  | some trms =>
    show some (mapLoop trms term [-1]) = _
    simp only [mapLoop]
    rw [if_pos (Or.inl (by decide))]
  | none => rfl

/-- C10: when no standard domain is declared (`stdDom = -1`),
`To(true, domainNames...)` always appends `-1` to the bound list; when in
addition no name resolves, the bound list is exactly `[-1]`, `To.Check`
returns no error, and every `Map` through the view (for a valid source
domain) returns `(term, -1)`. -/
theorem C10_no_std_appends (nm : NameMap) (names : List String)
    (hstd : nm.stdDom = -1) :
    (nm.To true names).tIdxs = resolvedIdxs nm names ++ [-1] ∧
      (resolvedIdxs nm names = [] →
        (nm.To true names).tIdxs = [-1] ∧
        (∀ mapHint domainHint,
          (nm.To true names).Check mapHint domainHint = none) ∧
        (∀ (fromDomain : Int) (term : String),
          0 ≤ fromDomain → fromDomain < (nm.trmMaps.length : Int) →
          (nm.To true names).Map fromDomain term = some (term, -1))) := by
  have hnotin : nm.stdDom ∉ resolvedIdxs nm names := by
    intro hmem
    have := resolvedIdxs_nonneg nm names _ hmem
    rw [hstd] at this
    exact absurd this (by decide)
  have htl : (nm.To true names).tIdxs = resolvedIdxs nm names ++ [-1] := by
    rw [To_tIdxs_eq, if_pos ⟨rfl, hnotin⟩, hstd]
  refine ⟨htl, fun hres => ?_⟩
  have htl₁ : (nm.To true names).tIdxs = [-1] := by
    rw [htl, hres]
    rfl
  refine ⟨htl₁, fun mapHint domainHint => ?_, fun fromDomain term h0 h1 => ?_⟩
  · simp only [To.Check, htl₁]
    rfl
  · have hn : (nm.To true names).nmap = nm := rfl
    simp only [To.Map, htl₁, toMapLoop, hn]
    rw [map_minus_one nm fromDomain term h0 h1]
    rfl

theorem C10_witness :
    (NameMap.To c5Nm true ["zzz"]).tIdxs = [-1] ∧
      (NameMap.To c5Nm true ["zzz"]).Check "m" "d" = none ∧
      (NameMap.To c5Nm true ["zzz"]).Map 0 "k" = some ("k", -1) := by
  have h := (C10_no_std_appends c5Nm ["zzz"] (by decide)).2 (by decide)
  exact ⟨h.1, h.2.1 "m" "d", h.2.2 0 "k" (by decide) (by decide)⟩

/-- A non-negative domain indicator from `Map` on a single target can only
name that target. -/
theorem map_single_target (nm : NameMap) (f x d : Int) (t m : String)
    (h : nm.Map f t [x] = some (m, d)) (hd : 0 ≤ d) : d = x := by
  simp only [NameMap.Map] at h
  by_cases hr : 0 ≤ f ∧ f < (nm.trmMaps.length : Int)
  · rw [if_pos hr] at h
    cases hf : mapFind (nm.trmMaps.getD f.toNat []) t with
    | some trms =>
      rw [hf] at h
      injection h with h₁
      simp only [mapLoop] at h₁
      by_cases hx : x < 0 ∨ (trms.length : Int) ≤ x
      · rw [if_pos hx] at h₁
        rw [Prod.mk.injEq] at h₁
        rw [← h₁.2] at hd
        exact absurd hd (by decide)
      · rw [if_neg hx] at h₁
        by_cases hlen : 0 < (trms.getD x.toNat "").length
        · rw [if_pos hlen] at h₁
          rw [Prod.mk.injEq] at h₁
          exact h₁.2.symm
        · rw [if_neg hlen] at h₁
          rw [Prod.mk.injEq] at h₁
          rw [← h₁.2] at hd
          exact absurd hd (by decide)
    | none =>
      rw [hf] at h
      injection h with h₁
      rw [Prod.mk.injEq] at h₁
      rw [← h₁.2] at hd
      exact absurd hd (by decide)
  · rw [if_neg hr] at h
    exact absurd h (by simp)

/-- A match from the `To.Map` loop started at counter `k` happened at some
position `j` of the remaining bound list, the indicator is `k + j`, and the
raw `Map` on that single bound target returns the raw domain index. -/
theorem toMapLoop_pos (nm : NameMap) (fromDomain : Int) (term m : String) :
    ∀ (l : List Int) (k : Nat) (d : Int),
      toMapLoop nm fromDomain term k l = some (m, d) → 0 ≤ d →
      ∃ j : Nat, j < l.length ∧ d = (k : Int) + (j : Int) ∧
        nm.Map fromDomain term [l.getD j 0] = some (m, l.getD j 0) := by
  intro l
  induction l with
  | nil =>
    intro k d h hd
    simp only [toMapLoop] at h
    injection h with h₁
    rw [Prod.mk.injEq] at h₁
    rw [← h₁.2] at hd
    exact absurd hd (by decide)
  | cons tDom rest ih =>
    intro k d h hd
    simp only [toMapLoop] at h
    split at h
    case _ m₀ d₀ hm =>
      by_cases h0 : 0 ≤ d₀
      · rw [if_pos h0] at h
        injection h with h₁
        rw [Prod.mk.injEq] at h₁
        refine ⟨0, by simp, by omega, ?_⟩
        have hx : d₀ = tDom := map_single_target nm fromDomain tDom d₀ term m₀ hm h0
        rw [List.getD_cons_zero]
        rw [← h₁.1, ← hx]
        rw [← hx] at hm
        exact hm
      · rw [if_neg h0] at h
        obtain ⟨j, hj, hd₁, hmap⟩ := ih (k + 1) d h hd
        refine ⟨j + 1, by simpa using Nat.succ_lt_succ hj, by push_cast; omega, ?_⟩
        rw [List.getD_cons_succ]
        exact hmap
    case _ hm =>
      exact absurd h (by simp)

/-- C8: for every `To` view (and `FromTo` view) whose `Map` finds a match,
the returned indicator `d` is the zero-based position of the matching
domain within the bound target list `tIdxs` — while the raw `NameMap.Map`
on the bound target at that position returns the raw domain index
`tIdxs[d]`, a deliberate behavioral difference. -/
theorem C8_position_in_bound_list :
    (∀ (t : To) (fromDomain : Int) (term m : String) (d : Int),
        t.Map fromDomain term = some (m, d) → 0 ≤ d →
        ∃ j : Nat, j < t.tIdxs.length ∧ d = (j : Int) ∧
          t.nmap.Map fromDomain term [t.tIdxs.getD j 0] =
            some (m, t.tIdxs.getD j 0)) ∧
      (∀ (ft : FromTo) (term m : String) (d : Int),
        ft.Map term = some (m, d) → 0 ≤ d →
        ∃ j : Nat, j < ft.tomap.tIdxs.length ∧ d = (j : Int) ∧
          ft.tomap.nmap.Map ft.fIdx term [ft.tomap.tIdxs.getD j 0] =
            some (m, ft.tomap.tIdxs.getD j 0)) := by
  have hTo : ∀ (t : To) (fromDomain : Int) (term m : String) (d : Int),
      t.Map fromDomain term = some (m, d) → 0 ≤ d →
      ∃ j : Nat, j < t.tIdxs.length ∧ d = (j : Int) ∧
        t.nmap.Map fromDomain term [t.tIdxs.getD j 0] =
          some (m, t.tIdxs.getD j 0) := by
    intro t fromDomain term m d h hd
    obtain ⟨j, hj, hd₁, hmap⟩ :=
      toMapLoop_pos t.nmap fromDomain term m t.tIdxs 0 d h hd
    exact ⟨j, hj, by omega, hmap⟩
  exact ⟨hTo, fun ft term m d h hd => hTo ft.tomap ft.fIdx term m d h hd⟩

theorem C8_witness :
    ∃ j : Nat, j < (NameMap.To exNm true ["l10n:DE", "zzz"]).tIdxs.length ∧
      (0 : Int) = (j : Int) ∧
      (NameMap.To exNm true ["l10n:DE", "zzz"]).nmap.Map 0 "warn"
          [(NameMap.To exNm true ["l10n:DE", "zzz"]).tIdxs.getD j 0] =
        some ("Warnung", (NameMap.To exNm true ["l10n:DE", "zzz"]).tIdxs.getD j 0) :=
  C8_position_in_bound_list.1 (NameMap.To exNm true ["l10n:DE", "zzz"])
    0 "warn" "Warnung" 0 (by decide) (by decide)

/-- C6: `Load` returns an error (and no NameMap) whenever the header
declares the same domain name twice, or more than one header token carries
the standard-domain marker, or zero domains are declared, or a data-row
item at some declared column is not a plain atom token. -/
theorem C6_load_errors (inp : NmInput)
    (h : ¬(inp.header.map Col.name).Nodup ∨
         2 ≤ inp.header.countP (fun c => c.meta) ∨
         inp.header = [] ∨
         (∃ row ∈ inp.rows, ∃ i : Nat, i < inp.header.length ∧
            row.get? i = some Gexpr.other)) :
    ∃ e, NameMap.Load inp = .error e := by
  rcases h with hdup | hmeta | hempty | ⟨row, hrow, i, hi, hitem⟩
  · obtain ⟨e, he⟩ := loadDomsGo_dup_error inp.header 0 [] (-1) (Or.inr hdup)
    exact ⟨e, Load_error_of_loadDoms inp e (by simp [loadDoms, he])⟩
  · obtain ⟨e, he⟩ := loadDomsGo_meta_error inp.header 0 [] (-1)
      (Or.inl hmeta)
    exact ⟨e, Load_error_of_loadDoms inp e (by simp [loadDoms, he])⟩
  · refine ⟨.emptyDoms, Load_error_of_loadDoms inp _ ?_⟩
    rw [hempty]
    rfl
  · cases hd : loadDoms inp.header with
    | error e => exact ⟨e, Load_error_of_loadDoms inp e hd⟩
    | ok ds =>
      obtain ⟨doms, std⟩ := ds
      have hlen : doms.length = inp.header.length := loadDoms_length _ _ _ hd
      obtain ⟨e, he⟩ := rowStrs_error row doms.length i (by omega) hitem
      obtain ⟨e₁, he₁⟩ := loadRows_error inp.rows doms.length
        (List.replicate doms.length []) row hrow ⟨e, he⟩
      exact ⟨e₁, Load_error_of_loadRows inp doms std e₁ hd he₁⟩

theorem C6_witness : ∃ e, NameMap.Load c6Inp = Except.error e :=
  C6_load_errors c6Inp (Or.inl (by decide))

/-- C4: the round trip fails on the code as written.  `Save` has no
placeholder parameter and writes every slot — an empty one included — as a
plain non-meta atom (`xpr.Atom(term, false, xsx.Qcond)`), so re-loading the
saved definition of `[\a b] (x \m)` registers the empty string as a term
key in domain `b`: the reloaded term→Row mappings are not equivalent to the
originals.  (The package's own tests call `Save` with a placeholder
argument and expect `\null` in the output, so the code contradicts its
tests.) -/
theorem C4_roundtrip_divergence :
    NameMap.Load c4Inp = Except.ok c4Nm ∧
      NameMap.Save c4Nm = some c4Saved ∧
      NameMap.Load c4Saved = Except.ok c4Nm2 ∧
      mapFind (c4Nm.trmMaps.getD 1 []) "" = none ∧
      mapFind (c4Nm2.trmMaps.getD 1 []) "" = some ["x", ""] ∧
      c4Nm2.trmMaps ≠ c4Nm.trmMaps :=
  ⟨rfl, rfl, rfl, rfl, rfl, by decide⟩

theorem C9_witness :
    (0 ≤ (3 : Int) → "Warnung" ≠ "") ∧
      ("Warnung" = "" → (3 : Int) = -1 ∧ "Warnung" = "warn") :=
  C9_nonempty_on_match exNm 0 "warn" "Warnung" 3 [3] (by decide)

end Namemap
